import Mathlib

/-!
Verification of the amimono runtime + RPC fabric against its specification.

The definitions below are a shallow embedding of the Rust sources:
`src/amimono/src/retry.rs`, `src/amimono/src/rpc.rs` (and its split-out
twin `src/amimono/src/rpc/{client,error,http}.rs`),
`src/amimono/src/config.rs`, `src/amimono/src/component.rs`, and
`src/amimono/src/k8s.rs`.  `HashMap`/`BTreeMap` values are embedded as
association lists observed through `alookup`, `HashSet` as a list with
set-semantics insert/remove, `Duration` as an exact rational number of
milliseconds, random draws (jitter, uniform endpoint choice) as explicit
parameters, async effects as explicit counters, and panics as `Option`
(`none` = panic).
-/

namespace Amimono

/-! ### Association-list embedding of `HashMap` / `BTreeMap` -/

/-- Key lookup: the observation function for embedded hash maps. -/
def alookup {α : Type} : List (String × α) → String → Option α
  | [], _ => none
  | kv :: rest, k => if kv.1 = k then some kv.2 else alookup rest k

/-- Embedding of `HashMap::remove`: drop the binding of `k`. -/
def aremove {α : Type} : List (String × α) → String → List (String × α)
  | [], _ => []
  | kv :: rest, k => if kv.1 = k then aremove rest k else kv :: aremove rest k

/-- Embedding of `HashMap::insert`: replace any binding of `k` with `v`. -/
def ainsert {α : Type} (l : List (String × α)) (k : String) (v : α) : List (String × α) :=
  (k, v) :: aremove l k

/-- Embedding of `HashSet::insert`. -/
def sinsert (s : List String) (x : String) : List String :=
  if x ∈ s then s else x :: s

/-- Embedding of `HashSet::remove`. -/
def sremove : List String → String → List String
  | [], _ => []
  | y :: rest, x => if y = x then sremove rest x else y :: sremove rest x

theorem alookup_aremove {α : Type} (l : List (String × α)) (k q) :
    alookup (aremove l k) q = if k = q then none else alookup l q := by
  induction l with
  | nil => simp [aremove, alookup]
  | cons kv rest ih =>
    simp only [aremove]
    by_cases hk : kv.1 = k
    · rw [if_pos hk, ih]
      by_cases h : k = q
      · rw [if_pos h, if_pos h]
      · have hq : ¬kv.1 = q := by rw [hk]; exact h
        rw [if_neg h, if_neg h]
        simp only [alookup, if_neg hq]
    · rw [if_neg hk]
      simp only [alookup]
      by_cases hq : kv.1 = q
      · have hkq : ¬k = q := fun h => hk (hq.trans h.symm)
        rw [if_pos hq, if_neg hkq, if_pos hq]
      · rw [if_neg hq, if_neg hq, ih]

theorem alookup_ainsert {α : Type} (l : List (String × α)) (k v q) :
    alookup (ainsert l k v) q = if k = q then some v else alookup l q := by
  by_cases h : k = q <;>
    simp [ainsert, alookup, h, alookup_aremove]

theorem mem_sinsert (s : List String) (x y : String) :
    y ∈ sinsert s x ↔ y = x ∨ y ∈ s := by
  by_cases h : x ∈ s
  · simp only [sinsert, if_pos h]
    constructor
    · exact Or.inr
    · rintro (rfl | hy)
      · exact h
      · exact hy
  · simp [sinsert, h]

theorem mem_sremove (s : List String) (x y : String) :
    y ∈ sremove s x ↔ y ∈ s ∧ y ≠ x := by
  induction s with
  | nil => simp [sremove]
  | cons z rest ih =>
    simp only [sremove]
    by_cases hz : z = x
    · rw [if_pos hz, ih]
      constructor
      · rintro ⟨h1, h2⟩
        exact ⟨List.mem_cons_of_mem z h1, h2⟩
      · rintro ⟨h1, h2⟩
        rcases List.mem_cons.mp h1 with rfl | h1
        · exact absurd hz h2
        · exact ⟨h1, h2⟩
    · rw [if_neg hz]
      constructor
      · intro h
        rcases List.mem_cons.mp h with rfl | h
        · exact ⟨List.mem_cons_self _ _, hz⟩
        · obtain ⟨h1, h2⟩ := ih.mp h
          exact ⟨List.mem_cons_of_mem z h1, h2⟩
      · rintro ⟨h1, h2⟩
        rcases List.mem_cons.mp h1 with rfl | h1
        · exact List.mem_cons_self _ _
        · exact List.mem_cons_of_mem z (ih.mpr ⟨h1, h2⟩)

/-! ### `RpcError` (src/amimono/src/rpc.rs, src/amimono/src/rpc/error.rs) -/

/-- An error when making an RPC call: `Spurious` / `Misc` / `Downstream`. -/
inductive RpcError : Type
  | Spurious (msg : String)
  | Misc (msg : String)
  | Downstream (at_label : String) (inner : RpcError)
  deriving DecidableEq

/-- Embedding of `RpcError::root_cause`. -/
def RpcError.root_cause : RpcError → RpcError
  | .Downstream _ e => e.root_cause
  | e => e

/-- Embedding of `impl RetryError for RpcError`: only `Spurious` is retryable; `Downstream`
propagates the inner error's retryability. -/
def RpcError.should_retry : RpcError → Bool
  | .Spurious _ => true
  | .Misc _ => false
  | .Downstream _ e => e.should_retry

/-! ### Retry policy (src/amimono/src/retry.rs) -/

/-- The `Retry` strategy: delay range (millis, exact rationals),
optional max attempt count, and backoff factor. -/
structure Retry : Type where
  delay_lo : ℚ
  delay_hi : ℚ
  max_attempts : Option ℕ
  factor : ℚ
  deriving DecidableEq

/-- Embedding of `impl RetryStrategy<E> for Retry`.  The uniform draw from
`delay_lo..=delay_hi` (`rand::random_range`) is passed in as `draw`;
`sr` stands for the `RetryError::should_retry` method of `E`.
`clamp(1.0, 50.0)` is `max 1 (min _ 50)` and `powi(n-1)` is an
integer power (exponent `(n : ℤ) - 1`). -/
def Retry.retry {E : Type} (r : Retry) (sr : E → Bool)
    (completed_attempts : ℕ) (last_error : E) (draw : ℚ) : Option ℚ :=
  let attempts_remaining : Bool :=
    match r.max_attempts with
    | some x => decide (completed_attempts < x)
    | none => true
  if !(sr last_error) || !attempts_remaining then
    none
  else
    let f : ℚ := max 1 (min (r.factor ^ ((completed_attempts : ℤ) - 1)) 50)
    some (draw * f)

/-- Embedding of `Retry::never()`. -/
def Retry.never : Retry := ⟨0, 0, some 1, 1⟩

/-- The constant `DEFAULT_RETRY` from rpc.rs: delay 100–200 ms, 5 attempts, factor 1.5. -/
def DEFAULT_RETRY : Retry := ⟨100, 200, some 5, 3 / 2⟩

/-- The generic retry loop `attempt` from retry.rs, with fuel.  The result of
attempt number `k` is `results k`, the jitter draw consumed on attempt `k` is
`draws k`.  Returns `(final result, number of attempts, number of sleeps)`;
`none` means the fuel ran out before the loop returned. -/
def attemptRun {E T : Type} (r : Retry) (sr : E → Bool)
    (results : ℕ → Except E T) (draws : ℕ → ℚ) :
    ℕ → ℕ → Option (Except E T × ℕ × ℕ)
  | _, 0 => none
  | n, fuel + 1 =>
    match results n with
    | .ok x => some (.ok x, 1, 0)
    | .error e =>
      match r.retry sr n e (draws n) with
      | none => some (.error e, 1, 0)
      | some _ =>
        (attemptRun r sr results draws (n + 1) fuel).map
          (fun y => (y.1, y.2.1 + 1, y.2.2 + 1))

/-! ### Locations and the RPC client (src/amimono/src/component.rs, rpc.rs) -/

/-- Embedding of `Location`: a tagged network address. -/
structure Location : Type where
  ephemeral : Bool
  addr : String
  deriving DecidableEq

/-- Embedding of `RpcClient`: holds an optional shared future resolving to the local
instance (`Some` iff the target component is locally present).  The resolved
instance is its handler, `Req → RpcResult<Resp>`.  The retry strategy is
passed to `call` explicitly. -/
structure RpcClient (Req Resp : Type) : Type where
  instance? : Option (Req → Except RpcError Resp)

/-- Embedding of `RpcClient::call_once`.  The outcome that `http_call` would produce is the
parameter `http_result`; the returned counters record how many times the local
handler was invoked and how many HTTP requests were made. -/
def RpcClient.call_once {Req Resp : Type} (c : RpcClient Req Resp) (label : String)
    (http_result : Except RpcError Resp) (q : Req) :
    Except RpcError Resp × ℕ × ℕ :=
  match c.instance? with
  | some inst => ((inst q).mapError (fun e => .Downstream label e), 1, 0)
  | none => (http_result.mapError (fun e => .Downstream label e), 0, 1)

/-- Embedding of `RpcClient::call_at_once`: `myself` is the `.ok()` of `T::myself()`;
dispatch is local only when `is_local`, the explicit address equals our own,
and the instance future is present. -/
def RpcClient.call_at_once {Req Resp : Type} (c : RpcClient Req Resp) (label : String)
    (is_local : Bool) (myself : Option Location) (addr : String)
    (http_result : Except RpcError Resp) (q : Req) :
    Except RpcError Resp × ℕ × ℕ :=
  let res :=
    if is_local = true ∧ myself.map Location.addr = some addr ∧ c.instance?.isSome then
      match c.instance? with
      | some inst => ((inst q), 1, 0)
      | none => (http_result, 0, 1)
    else (http_result, 0, 1)
  (res.1.mapError (fun e => .Downstream label e), res.2)

/-- Embedding of `RpcClient::call`: the retry loop around `call_once`, with fuel.
Attempt `n` uses `http_results n` as the HTTP outcome and `draws n` as the
jitter draw.  Returns `(result, attempts made, sleeps performed)`. -/
def RpcClient.call {Req Resp : Type} (c : RpcClient Req Resp) (label : String) (r : Retry)
    (http_results : ℕ → Except RpcError Resp) (draws : ℕ → ℚ) (q : Req) :
    ℕ → ℕ → Option (Except RpcError Resp × ℕ × ℕ)
  | _, 0 => none
  | n, fuel + 1 =>
    match (c.call_once label (http_results n) q).1 with
    | .ok x => some (.ok x, 1, 0)
    | .error e =>
      match r.retry RpcError.should_retry n e (draws n) with
      | none => some (.error e, 1, 0)
      | some _ =>
        (c.call label r http_results draws q (n + 1) fuel).map
          (fun y => (y.1, y.2.1 + 1, y.2.2 + 1))

/-- Embedding of `RpcClient::call_at`: the retry loop around `call_at_once`. -/
def RpcClient.call_at {Req Resp : Type} (c : RpcClient Req Resp) (label : String)
    (is_local : Bool) (myself : Option Location) (addr : String) (r : Retry)
    (http_results : ℕ → Except RpcError Resp) (draws : ℕ → ℚ) (q : Req) :
    ℕ → ℕ → Option (Except RpcError Resp × ℕ × ℕ)
  | _, 0 => none
  | n, fuel + 1 =>
    match (c.call_at_once label is_local myself addr (http_results n) q).1 with
    | .ok x => some (.ok x, 1, 0)
    | .error e =>
      match r.retry RpcError.should_retry n e (draws n) with
      | none => some (.error e, 1, 0)
      | some _ =>
        (c.call_at label is_local myself addr r http_results draws q (n + 1) fuel).map
          (fun y => (y.1, y.2.1 + 1, y.2.2 + 1))

/-! ### HTTP transport error classification (rpc.rs / rpc/http.rs) -/

/-- A `reqwest::Error`, abstracted by the observations rpc.rs makes of it. -/
structure ReqwestError : Type where
  is_timeout : Bool
  url_origin : Option String
  msg : String
  deriving DecidableEq

/-- Embedding of `impl From<reqwest::Error> for RpcError`: timeouts become `Spurious`,
everything else (connection resets included) becomes `Misc`. -/
def RpcError.from_reqwest (e : ReqwestError) : RpcError :=
  if e.is_timeout then
    .Spurious ("http timeout at " ++ e.url_origin.getD "(unknown)")
  else
    .Misc ("http error: " ++ e.msg)

/-- The endpoint-selection stage of `http_call`: the result of
`discover_running` plus the random index drawn by `choose`. -/
def http_call_discover (discovered : Except String (List Location)) (idx : ℕ) :
    Except RpcError Location :=
  match discovered with
  | .error e => .error (.Misc ("could not discover endpoint: " ++ e))
  | .ok locs =>
    match locs.get? (idx % locs.length) with
    | none => .error (.Misc "discovery endpoints empty")
    | some l => .ok l

/-- C2: For every `Retry` with delay range `[lo, hi]`, optional `max_attempts`,
and `factor ≥ 1`, and every error `e`: `Retry::retry(n, e)` (with `n` the
1-based count of completed attempts) returns `None` iff `e.should_retry()` is
false or `max_attempts = Some m` with `n ≥ m`; otherwise it returns `Some d`
with `lo * f ≤ d ≤ hi * f` where `f = min(factor^(n-1), 50)`. -/
theorem retry_policy_spec {E : Type} (r : Retry) (sr : E → Bool) (n : ℕ) (e : E) (draw : ℚ)
    (hf : 1 ≤ r.factor) (hn : 1 ≤ n)
    (hlo : r.delay_lo ≤ draw) (hhi : draw ≤ r.delay_hi) :
    (r.retry sr n e draw = none ↔ (sr e = false ∨ ∃ m, r.max_attempts = some m ∧ m ≤ n))
    ∧ ∀ d, r.retry sr n e draw = some d →
        r.delay_lo * min (r.factor ^ (n - 1)) 50 ≤ d
        ∧ d ≤ r.delay_hi * min (r.factor ^ (n - 1)) 50 := by
  have hz : r.factor ^ ((n : ℤ) - 1) = r.factor ^ (n - 1) := by
    have h1 : ((n : ℤ) - 1) = ((n - 1 : ℕ) : ℤ) := by omega
    rw [h1, zpow_natCast]
  have hpow : 1 ≤ r.factor ^ (n - 1) := one_le_pow₀ hf
  have hminpos : (1 : ℚ) ≤ min (r.factor ^ (n - 1)) 50 := le_min hpow (by norm_num)
  have hmax : max 1 (min (r.factor ^ ((n : ℤ) - 1)) 50) = min (r.factor ^ (n - 1)) 50 := by
    rw [hz]; exact max_eq_right hminpos
  constructor
  · rcases hmx : r.max_attempts with _ | m
    · cases hsr : sr e <;> simp [Retry.retry, hmx, hsr]
    · cases hsr : sr e
      · simp [Retry.retry, hmx, hsr]
      · by_cases hm : n < m
        · simp [Retry.retry, hmx, hsr, hm]
        · simp [Retry.retry, hmx, hsr, hm]
          omega
  · intro d hd
    have hF : d = draw * min (r.factor ^ (n - 1)) 50 := by
      simp only [Retry.retry] at hd
      split at hd
      · exact absurd hd (by simp)
      · rw [hmax] at hd
        exact (Option.some.inj hd).symm
    have hFnn : (0 : ℚ) ≤ min (r.factor ^ (n - 1)) 50 := le_trans zero_le_one hminpos
    subst hF
    exact ⟨mul_le_mul_of_nonneg_right hlo hFnn, mul_le_mul_of_nonneg_right hhi hFnn⟩

/-- Witness for C2, at the client's default retry strategy (delay 100–200 ms,
5 attempts, factor 1.5), attempt 2, draw 150, a spurious error. -/
theorem retry_policy_spec_witness :
    ((1 : ℚ) ≤ DEFAULT_RETRY.factor ∧ 1 ≤ 2
      ∧ DEFAULT_RETRY.delay_lo ≤ (150 : ℚ) ∧ (150 : ℚ) ≤ DEFAULT_RETRY.delay_hi)
    ∧ ((DEFAULT_RETRY.retry RpcError.should_retry 2 (RpcError.Spurious "x") 150 = none
        ↔ ((RpcError.Spurious "x").should_retry = false
          ∨ ∃ m, DEFAULT_RETRY.max_attempts = some m ∧ m ≤ 2))
      ∧ ∀ d, DEFAULT_RETRY.retry RpcError.should_retry 2 (RpcError.Spurious "x") 150 = some d →
          DEFAULT_RETRY.delay_lo * min (DEFAULT_RETRY.factor ^ (2 - 1)) 50 ≤ d
          ∧ d ≤ DEFAULT_RETRY.delay_hi * min (DEFAULT_RETRY.factor ^ (2 - 1)) 50) :=
  ⟨⟨by norm_num [DEFAULT_RETRY], by norm_num, by norm_num [DEFAULT_RETRY],
      by norm_num [DEFAULT_RETRY]⟩,
    retry_policy_spec DEFAULT_RETRY RpcError.should_retry 2 (RpcError.Spurious "x") 150
      (by norm_num [DEFAULT_RETRY]) (by norm_num)
      (by norm_num [DEFAULT_RETRY]) (by norm_num [DEFAULT_RETRY])⟩

theorem mapError_downstream {Resp : Type} (label : String) (x : Except RpcError Resp)
    (err : RpcError)
    (h : x.mapError (fun e => RpcError.Downstream label e) = .error err) :
    ∃ inner, err = .Downstream label inner := by
  cases x with
  | ok v => simp [Except.mapError] at h
  | error e =>
    simp [Except.mapError] at h
    exact ⟨e, h.symm⟩

/-- C1: Every error returned by `RpcClient::call`, `call_once`, `call_at`, or
`call_at_once` is `Downstream(label, inner)` with `label` the target kind's
`LABEL`, on both the in-process and the HTTP dispatch paths. -/
theorem rpc_downstream_wrapping {Req Resp : Type} (c : RpcClient Req Resp) (label : String) :
    (∀ q hr err, (c.call_once label hr q).1 = .error err →
        ∃ inner, err = .Downstream label inner)
    ∧ (∀ q il my addr hr err, (c.call_at_once label il my addr hr q).1 = .error err →
        ∃ inner, err = .Downstream label inner)
    ∧ (∀ r hrs draws q n fuel res cnt err,
        c.call label r hrs draws q n fuel = some (res, cnt) → res = .error err →
        ∃ inner, err = .Downstream label inner)
    ∧ (∀ il my addr r hrs draws q n fuel res cnt err,
        c.call_at label il my addr r hrs draws q n fuel = some (res, cnt) →
        res = .error err →
        ∃ inner, err = .Downstream label inner) := by
  have h1 : ∀ q hr err, (c.call_once label hr q).1 = .error err →
      ∃ inner, err = .Downstream label inner := by
    intro q hr err h
    unfold RpcClient.call_once at h
    cases hc : c.instance? with
    | some inst => rw [hc] at h; exact mapError_downstream label _ err h
    | none => rw [hc] at h; exact mapError_downstream label _ err h
  have h2 : ∀ q il my addr hr err, (c.call_at_once label il my addr hr q).1 = .error err →
      ∃ inner, err = .Downstream label inner := by
    intro q il my addr hr err h
    unfold RpcClient.call_at_once at h
    exact mapError_downstream label _ err h
  refine ⟨h1, h2, ?_, ?_⟩
  · intro r hrs draws q n fuel res cnt err hrun hres
    subst hres
    induction fuel generalizing n cnt with
    | zero => simp [RpcClient.call] at hrun
    | succ fuel ih =>
      rw [RpcClient.call] at hrun
      split at hrun
      · simp at hrun
      · rename_i e heq
        split at hrun
        · simp at hrun
          obtain ⟨he, -⟩ := hrun
          exact h1 q (hrs n) err (by rw [heq, he])
        · cases hrec : c.call label r hrs draws q (n + 1) fuel with
          | none => rw [hrec] at hrun; simp at hrun
          | some y =>
            obtain ⟨ry, cy⟩ := y
            rw [hrec] at hrun
            simp at hrun
            obtain ⟨hry, -⟩ := hrun
            exact ih (n + 1) cy (by rw [hrec, hry])
  · intro il my addr r hrs draws q n fuel res cnt err hrun hres
    subst hres
    induction fuel generalizing n cnt with
    | zero => simp [RpcClient.call_at] at hrun
    | succ fuel ih =>
      rw [RpcClient.call_at] at hrun
      split at hrun
      · simp at hrun
      · rename_i e heq
        split at hrun
        · simp at hrun
          obtain ⟨he, -⟩ := hrun
          exact h2 q il my addr (hrs n) err (by rw [heq, he])
        · cases hrec : c.call_at label il my addr r hrs draws q (n + 1) fuel with
          | none => rw [hrec] at hrun; simp at hrun
          | some y =>
            obtain ⟨ry, cy⟩ := y
            rw [hrec] at hrun
            simp at hrun
            obtain ⟨hry, -⟩ := hrun
            exact ih (n + 1) cy (by rw [hrec, hry])

/-- Witness for C1: a local handler failing with `Misc "boom"` surfaces as
`Downstream("tgt", Misc "boom")`. -/
theorem rpc_downstream_wrapping_witness :
    ∃ inner, RpcError.Downstream "tgt" (RpcError.Misc "boom") = .Downstream "tgt" inner :=
  (rpc_downstream_wrapping
      (⟨some fun _ => .error (.Misc "boom")⟩ : RpcClient Unit Unit) "tgt").1
    () (.ok ()) (.Downstream "tgt" (.Misc "boom")) rfl

/-- C4: When the target component is locally present (`instance?` is `Some`),
`call_once` invokes the instance's handler directly, exactly once, and makes
no HTTP request; and a `call` whose local dispatch succeeds completes in a
single attempt with no sleeps. -/
theorem local_short_circuit {Req Resp : Type} (c : RpcClient Req Resp) (label : String)
    (inst : Req → Except RpcError Resp) (h : c.instance? = some inst) :
    (∀ q hr, c.call_once label hr q
        = ((inst q).mapError (fun e => .Downstream label e), 1, 0))
    ∧ ∀ q r hrs draws x fuel, inst q = .ok x → 1 ≤ fuel →
        c.call label r hrs draws q 1 fuel = some (.ok x, 1, 0) := by
  have hco : ∀ q hr, c.call_once label hr q
      = ((inst q).mapError (fun e => .Downstream label e), 1, 0) := by
    intro q hr
    unfold RpcClient.call_once
    rw [h]
  refine ⟨hco, ?_⟩
  intro q r hrs draws x fuel hq hfuel
  cases fuel with
  | zero => omega
  | succ fuel =>
    rw [RpcClient.call, hco q (hrs 1), hq]
    rfl

/-- Witness for C4: a locally present handler returning `42` completes in one
attempt with no sleeps. -/
theorem local_short_circuit_witness :
    RpcClient.call (⟨some fun _ => .ok 42⟩ : RpcClient Unit ℕ) "tgt" Retry.never
      (fun _ => .error (.Misc "x")) (fun _ => 0) () 1 1 = some (.ok 42, 1, 0) :=
  (local_short_circuit (⟨some fun _ => .ok 42⟩ : RpcClient Unit ℕ) "tgt"
      (fun _ => .ok 42) rfl).2
    () Retry.never (fun _ => .error (.Misc "x")) (fun _ => 0) 42 1 rfl (by norm_num)

/-- C3 counterexample: a connection reset (a non-timeout transport error) is
classified `Misc`, which is not retryable, and an empty discovery-endpoint
set also yields a non-retryable `Misc` error — contradicting the claim that
these are classified as retryable (`Spurious`). -/
theorem spurious_classification_cex :
    (RpcError.from_reqwest ⟨false, none, "connection reset by peer"⟩).should_retry = false
    ∧ http_call_discover (.ok []) 0 = .error (.Misc "discovery endpoints empty")
    ∧ (RpcError.Misc "discovery endpoints empty").should_retry = false :=
  ⟨rfl, rfl, rfl⟩

/-- C3 amended: an HTTP transport error from reqwest is retryable exactly when
it is a timeout (connection resets are `Misc`, not retryable); an empty
discovery-endpoint set yields `Misc "discovery endpoints empty"`, which is
not retryable. -/
theorem spurious_classification (e : ReqwestError) (idx : ℕ) :
    (RpcError.from_reqwest e).should_retry = e.is_timeout
    ∧ http_call_discover (.ok []) idx = .error (.Misc "discovery endpoints empty")
    ∧ (RpcError.Misc "discovery endpoints empty").should_retry = false := by
  refine ⟨?_, rfl, rfl⟩
  cases h : e.is_timeout <;>
    simp [RpcError.from_reqwest, h, RpcError.should_retry]

theorem attemptRun_exhaust_aux {E T : Type} (r : Retry) (m : ℕ)
    (hmx : r.max_attempts = some m)
    (sr : E → Bool) (results : ℕ → Except E T) (draws : ℕ → ℚ)
    (herr : ∀ k, ∃ e, results k = .error e ∧ sr e = true) :
    ∀ fuel k, 1 ≤ k → k ≤ m → m < k + fuel →
      ∃ e, results m = .error e ∧
        attemptRun r sr results draws k fuel = some (.error e, m + 1 - k, m - k) := by
  intro fuel
  induction fuel with
  | zero => intro k _ h2 h3; omega
  | succ fuel ih =>
    intro k h1 h2 h3
    obtain ⟨e, he, hsr⟩ := herr k
    by_cases hkm : k = m
    · subst hkm
      refine ⟨e, he, ?_⟩
      have hre : r.retry sr k e (draws k) = none := by
        simp [Retry.retry, hmx, hsr]
      simp only [attemptRun, he, hre]
      have e1 : k + 1 - k = 1 := by omega
      have e2 : k - k = 0 := by omega
      rw [e1, e2]
    · have hkm' : k < m := lt_of_le_of_ne h2 hkm
      obtain ⟨e', he', hrest⟩ := ih (k + 1) (by omega) (by omega) (by omega)
      refine ⟨e', he', ?_⟩
      have hre : r.retry sr k e (draws k) =
          some (draws k * max 1 (min (r.factor ^ ((k : ℤ) - 1)) 50)) := by
        simp [Retry.retry, hmx, hsr, hkm']
      simp only [attemptRun, he, hre, hrest, Option.map_some']
      have e1 : m + 1 - (k + 1) + 1 = m + 1 - k := by omega
      have e2 : m - (k + 1) + 1 = m - k := by omega
      rw [e1, e2]

/-- C7: With `max_attempts = n ≥ 1` and every attempt failing with a
retryable error, the retry loop (`attempt` in retry.rs, and identically
`RpcClient::call`) performs at most `n` attempts and at most `n - 1` sleeps
before returning the last error. -/
theorem retry_exhaustion {E T Req Resp : Type} (r : Retry) (m : ℕ) (hm : 1 ≤ m)
    (hmx : r.max_attempts = some m)
    (sr : E → Bool) (results : ℕ → Except E T) (draws : ℕ → ℚ)
    (herr : ∀ k, ∃ e, results k = .error e ∧ sr e = true)
    (c : RpcClient Req Resp) (label : String) (q : Req)
    (hrs : ℕ → Except RpcError Resp)
    (herr2 : ∀ k, ∃ e, (c.call_once label (hrs k) q).1 = .error e ∧ e.should_retry = true)
    (fuel : ℕ) (hfuel : m ≤ fuel) :
    (∃ e ops sleeps, attemptRun r sr results draws 1 fuel = some (.error e, ops, sleeps)
        ∧ results ops = .error e ∧ ops ≤ m ∧ sleeps ≤ m - 1)
    ∧ (∃ e ops sleeps, c.call label r hrs draws q 1 fuel = some (.error e, ops, sleeps)
        ∧ ops ≤ m ∧ sleeps ≤ m - 1) := by
  have hcall_eq : ∀ n fl, c.call label r hrs draws q n fl
      = attemptRun r RpcError.should_retry (fun k => (c.call_once label (hrs k) q).1)
          draws n fl := by
    intro n fl
    induction fl generalizing n with
    | zero => rfl
    | succ fl ih =>
      rw [RpcClient.call, attemptRun]
      cases hx : (c.call_once label (hrs n) q).1 with
      | ok x => rfl
      | error e =>
        cases hy : r.retry RpcError.should_retry n e (draws n) with
        | none => simp only [hy]
        | some d => simp only [hy, ih]
  constructor
  · obtain ⟨e, he, hrun⟩ :=
      attemptRun_exhaust_aux r m hmx sr results draws herr fuel 1 le_rfl hm (by omega)
    refine ⟨e, m + 1 - 1, m - 1, hrun, ?_, by omega, by omega⟩
    rw [show m + 1 - 1 = m by omega]
    exact he
  · obtain ⟨e, he, hrun⟩ :=
      attemptRun_exhaust_aux r m hmx RpcError.should_retry
        (fun k => (c.call_once label (hrs k) q).1) draws herr2 fuel 1 le_rfl hm (by omega)
    exact ⟨e, m + 1 - 1, m - 1, by rw [hcall_eq]; exact hrun, by omega, by omega⟩

/-- Witness for C7: two guaranteed-spurious failures against
`max_attempts = 2` exhaust in 2 attempts and 1 sleep. -/
theorem retry_exhaustion_witness :
    (∃ e ops sleeps,
        attemptRun (⟨0, 0, some 2, 1⟩ : Retry) (fun _ : Unit => true)
            (fun _ : ℕ => (Except.error () : Except Unit Unit)) (fun _ => 0) 1 2
          = some (.error e, ops, sleeps)
          ∧ (fun _ : ℕ => (Except.error () : Except Unit Unit)) ops = .error e
          ∧ ops ≤ 2 ∧ sleeps ≤ 2 - 1)
    ∧ (∃ e ops sleeps,
        RpcClient.call (⟨none⟩ : RpcClient Unit Unit) "tgt" (⟨0, 0, some 2, 1⟩ : Retry)
            (fun _ => .error (.Spurious "s")) (fun _ => 0) () 1 2
          = some (.error e, ops, sleeps)
          ∧ ops ≤ 2 ∧ sleeps ≤ 2 - 1) :=
  retry_exhaustion (⟨0, 0, some 2, 1⟩ : Retry) 2 (by norm_num) rfl
    (fun _ : Unit => true) (fun _ : ℕ => (Except.error () : Except Unit Unit)) (fun _ => 0)
    (fun _ => ⟨(), rfl, rfl⟩)
    (⟨none⟩ : RpcClient Unit Unit) "tgt" ()
    (fun _ => .error (.Spurious "s"))
    (fun _ => ⟨.Downstream "tgt" (.Spurious "s"), rfl, rfl⟩)
    2 le_rfl

/-! ### Application configuration (src/amimono/src/config.rs)

Builder panics (duplicate labels, empty jobs) are embedded as `Except.error`;
an `AppConfig` "accepted" by the builder is one for which the build pipeline
returns `.ok`. -/

/-- Embedding of `ComponentConfig`: its label plus the opaque kind id. -/
structure ComponentConfig : Type where
  label : String
  id : ℕ
  deriving DecidableEq

/-- Embedding of `JobConfig`: label plus components (a `BTreeMap` keyed by label). -/
structure JobConfig : Type where
  label : String
  components : List ComponentConfig
  deriving DecidableEq

structure JobBuilder : Type where
  label : Option String
  components : List ComponentConfig
  deriving DecidableEq

def JobBuilder.new : JobBuilder := ⟨none, []⟩

/-- Embedding of `JobBuilder::add_component`: panics on a duplicate in-job label. -/
def JobBuilder.add_component (b : JobBuilder) (c : ComponentConfig) :
    Except String JobBuilder :=
  if b.components.any (fun x => x.label = c.label) then
    .error ("duplicate component label: " ++ c.label)
  else
    .ok ⟨b.label, b.components ++ [c]⟩

def JobBuilder.with_label (b : JobBuilder) (l : String) : JobBuilder :=
  ⟨some l, b.components⟩

/-- Embedding of `JobBuilder::build`: at least one component, and an explicit label unless
there is exactly one component (whose label is then inherited). -/
def JobBuilder.build (b : JobBuilder) : Except String JobConfig :=
  match b.components with
  | [] => .error "jobs must have at least one component"
  | c :: rest =>
    match b.label with
    | some l => .ok ⟨l, c :: rest⟩
    | none =>
      match rest with
      | [] => .ok ⟨c.label, [c]⟩
      | _ => .error "jobs with multiple components must have an explicit label"

/-- Embedding of `AppConfig`: revision, the placement map `component label → job label`,
and the jobs keyed by job label. -/
structure AppConfig : Type where
  revision : String
  component_jobs : List (String × String)
  jobs : List (String × JobConfig)
  deriving DecidableEq

/-- Embedding of `AppConfig::component_job`. -/
def AppConfig.component_job (a : AppConfig) (label : String) : Option String :=
  alookup a.component_jobs label

structure AppBuilder : Type where
  app : AppConfig
  deriving DecidableEq

def AppBuilder.new (revision : String) : AppBuilder := ⟨⟨revision, [], []⟩⟩

def AppBuilder.build (b : AppBuilder) : AppConfig := b.app

/-- The loop in `AppBuilder::add_job` that records each component's job in the
placement map, panicking if the component is already assigned. -/
def addComponentJobs (cj : List (String × String)) (job_label : String) :
    List ComponentConfig → Except String (List (String × String))
  | [] => .ok cj
  | c :: rest =>
    match alookup cj c.label with
    | some other =>
      .error ("component " ++ c.label ++ " already assigned to job " ++ other)
    | none => addComponentJobs (ainsert cj c.label job_label) job_label rest

/-- Embedding of `AppBuilder::add_job`: record placements, then insert the job,
panicking on a duplicate job label. -/
def AppBuilder.add_job (b : AppBuilder) (job : JobConfig) : Except String AppBuilder :=
  match addComponentJobs b.app.component_jobs job.label job.components with
  | .error e => .error e
  | .ok cj =>
    match alookup b.app.jobs job.label with
    | some _ => .error ("duplicate job label: " ++ job.label)
    | none => .ok ⟨⟨b.app.revision, cj, ainsert b.app.jobs job.label job⟩⟩

/-- Folding `AppBuilder::add_job` over a list of jobs. -/
def AppBuilder.add_jobs (b : AppBuilder) : List JobConfig → Except String AppBuilder
  | [] => .ok b
  | j :: rest =>
    match b.add_job j with
    | .error e => .error e
    | .ok b2 => b2.add_jobs rest

theorem addComponentJobs_spec (comps : List ComponentConfig) :
    ∀ cj jl cj2, addComponentJobs cj jl comps = .ok cj2 →
      ((comps.map ComponentConfig.label).Nodup
        ∧ (∀ c ∈ comps, alookup cj c.label = none)
        ∧ ∀ l, alookup cj2 l =
            if l ∈ comps.map ComponentConfig.label then some jl else alookup cj l) := by
  induction comps with
  | nil =>
    intro cj jl cj2 h
    rw [addComponentJobs] at h
    obtain rfl := (Except.ok.inj h)
    exact ⟨List.nodup_nil, by simp, fun l => by simp⟩
  | cons c rest ih =>
    intro cj jl cj2 h
    rw [addComponentJobs] at h
    split at h
    · simp at h
    · rename_i hc
      obtain ⟨hnd, hfresh, hlook⟩ := ih (ainsert cj c.label jl) jl cj2 h
      refine ⟨?_, ?_, ?_⟩
      · rw [List.map_cons, List.nodup_cons]
        refine ⟨?_, hnd⟩
        intro hmem
        obtain ⟨c', hc', hlbl⟩ := List.mem_map.mp hmem
        have := hfresh c' hc'
        rw [alookup_ainsert, hlbl, if_pos rfl] at this
        exact Option.noConfusion this
      · intro c' hc'
        rcases List.mem_cons.mp hc' with rfl | hc'
        · exact hc
        · have := hfresh c' hc'
          rw [alookup_ainsert] at this
          by_cases hcl : c.label = c'.label
          · rw [if_pos hcl] at this
            exact Option.noConfusion this
          · rwa [if_neg hcl] at this
      · intro l
        rw [hlook l, alookup_ainsert, List.map_cons]
        by_cases h1 : l ∈ rest.map ComponentConfig.label
        · rw [if_pos h1, if_pos (List.mem_cons_of_mem _ h1)]
        · rw [if_neg h1]
          by_cases h2 : c.label = l
          · rw [if_pos h2, if_pos (by rw [← h2]; exact List.mem_cons_self _ _)]
          · rw [if_neg h2, if_neg ?_]
            intro hm
            rcases List.mem_cons.mp hm with rfl | hm
            · exact h2 rfl
            · exact h1 hm

theorem add_job_spec (b : AppBuilder) (job : JobConfig) (b2 : AppBuilder)
    (h : b.add_job job = .ok b2) :
    (job.components.map ComponentConfig.label).Nodup
    ∧ (∀ c ∈ job.components, alookup b.app.component_jobs c.label = none)
    ∧ (∀ l, alookup b2.app.component_jobs l =
        if l ∈ job.components.map ComponentConfig.label then some job.label
        else alookup b.app.component_jobs l)
    ∧ alookup b.app.jobs job.label = none
    ∧ (∀ l, alookup b2.app.jobs l =
        if job.label = l then some job else alookup b.app.jobs l)
    ∧ b2.app.revision = b.app.revision := by
  unfold AppBuilder.add_job at h
  split at h
  · simp at h
  · rename_i cj hacj
    split at h
    · simp at h
    · rename_i hjl
      obtain rfl := (Except.ok.inj h)
      obtain ⟨hnd, hfresh, hlook⟩ := addComponentJobs_spec job.components _ _ _ hacj
      exact ⟨hnd, hfresh, hlook, hjl, fun l => alookup_ainsert _ _ _ _, rfl⟩

theorem add_jobs_spec (js : List JobConfig) :
    ∀ b b2, AppBuilder.add_jobs b js = .ok b2 →
      ((js.map JobConfig.label).Nodup
      ∧ (∀ j ∈ js, alookup b.app.jobs j.label = none)
      ∧ ((js.flatMap JobConfig.components).map ComponentConfig.label).Nodup
      ∧ (∀ j ∈ js, ∀ c ∈ j.components, alookup b.app.component_jobs c.label = none)
      ∧ (∀ j ∈ js, ∀ c ∈ j.components,
          alookup b2.app.component_jobs c.label = some j.label)
      ∧ (∀ l v, alookup b.app.component_jobs l = some v →
          alookup b2.app.component_jobs l = some v)
      ∧ (∀ l, (alookup b2.app.component_jobs l).isSome
          ↔ ((alookup b.app.component_jobs l).isSome
            ∨ l ∈ (js.flatMap JobConfig.components).map ComponentConfig.label))) := by
  induction js with
  | nil =>
    intro b b2 h
    rw [AppBuilder.add_jobs] at h
    obtain rfl := (Except.ok.inj h)
    simp
  | cons j rest ih =>
    intro b b2 h
    rw [AppBuilder.add_jobs] at h
    split at h
    · simp at h
    · rename_i b1 hjob
      obtain ⟨hjnd, hjob_none, hjbind, hjcomp_none, hjplace, hjmono, hjdom⟩ :=
        ih b1 b2 h
      obtain ⟨hnd1, hfresh1, hcj1, hjl1, hjobs1, -⟩ := add_job_spec b j b1 hjob
      have hsplit : ((j :: rest).flatMap JobConfig.components).map ComponentConfig.label
          = j.components.map ComponentConfig.label
            ++ (rest.flatMap JobConfig.components).map ComponentConfig.label := by
        simp [List.flatMap_cons]
      refine ⟨?_, ?_, ?_, ?_, ?_, ?_, ?_⟩
      · rw [List.map_cons, List.nodup_cons]
        refine ⟨?_, hjnd⟩
        intro hmem
        obtain ⟨j', hj', hlbl⟩ := List.mem_map.mp hmem
        have hnone := hjob_none j' hj'
        rw [hjobs1 j'.label, hlbl, if_pos rfl] at hnone
        exact Option.noConfusion hnone
      · intro j' hj'
        rcases List.mem_cons.mp hj' with rfl | hj'
        · exact hjl1
        · have hnone := hjob_none j' hj'
          rw [hjobs1 j'.label] at hnone
          by_cases hl : j.label = j'.label
          · rw [if_pos hl] at hnone
            exact Option.noConfusion hnone
          · rwa [if_neg hl] at hnone
      · rw [hsplit, List.nodup_append]
        refine ⟨hnd1, hjbind, ?_⟩
        intro l hl1 hl2
        obtain ⟨c', hc'mem, hlbl⟩ := List.mem_map.mp hl2
        obtain ⟨j', hj', hc'⟩ := List.mem_flatMap.mp hc'mem
        have hnone := hjcomp_none j' hj' c' hc'
        rw [hcj1 c'.label, hlbl, if_pos hl1] at hnone
        exact Option.noConfusion hnone
      · intro j' hj' c' hc'
        rcases List.mem_cons.mp hj' with rfl | hj'
        · exact hfresh1 c' hc'
        · have hnone := hjcomp_none j' hj' c' hc'
          rw [hcj1 c'.label] at hnone
          by_cases hl : c'.label ∈ j.components.map ComponentConfig.label
          · rw [if_pos hl] at hnone
            exact Option.noConfusion hnone
          · rwa [if_neg hl] at hnone
      · intro j' hj' c' hc'
        rcases List.mem_cons.mp hj' with rfl | hj'
        · apply hjmono
          rw [hcj1 c'.label,
            if_pos (List.mem_map.mpr ⟨c', hc', rfl⟩)]
        · exact hjplace j' hj' c' hc'
      · intro l v hv
        apply hjmono
        rw [hcj1 l]
        by_cases hl : l ∈ j.components.map ComponentConfig.label
        · obtain ⟨c', hc', hlbl⟩ := List.mem_map.mp hl
          have := hfresh1 c' hc'
          rw [hlbl, hv] at this
          exact Option.noConfusion this
        · rwa [if_neg hl]
      · intro l
        rw [hjdom l, hcj1 l, hsplit, List.mem_append]
        by_cases hl : l ∈ j.components.map ComponentConfig.label
        · simp [hl]
        · rw [if_neg hl]
          tauto

/-- C5: For every `AppConfig` that `AppBuilder` accepts: components have
pairwise-distinct labels, job labels are distinct, `component_job(c)` is
defined iff `c` is the label of a registered component, and for every
component `c` in job `j`, `component_job(c.label) = j.label` (placement is
total). -/
theorem app_builder_invariants (rev : String) (js : List JobConfig) (b : AppBuilder)
    (h : (AppBuilder.new rev).add_jobs js = .ok b) :
    (js.map JobConfig.label).Nodup
    ∧ ((js.flatMap JobConfig.components).map ComponentConfig.label).Nodup
    ∧ (∀ l, ((AppBuilder.build b).component_job l).isSome
        ↔ l ∈ (js.flatMap JobConfig.components).map ComponentConfig.label)
    ∧ ∀ j ∈ js, ∀ c ∈ j.components,
        (AppBuilder.build b).component_job c.label = some j.label := by
  obtain ⟨h1, -, h3, -, h5, -, h7⟩ := add_jobs_spec js (AppBuilder.new rev) b h
  refine ⟨h1, h3, ?_, h5⟩
  intro l
  have hbase := h7 l
  simpa [AppBuilder.new, AppConfig.component_job, AppBuilder.build, alookup] using hbase

/-- Witness for C5: a two-job app (`a` with components `c1`, `c2`; `b` with
`c3`) is accepted and placement is total. -/
theorem app_builder_invariants_witness :
    ((AppBuilder.new "r").add_jobs
        [⟨"a", [⟨"c1", 0⟩, ⟨"c2", 1⟩]⟩, ⟨"b", [⟨"c3", 2⟩]⟩]
      = .ok ⟨⟨"r", [("c3", "b"), ("c2", "a"), ("c1", "a")],
          [("b", ⟨"b", [⟨"c3", 2⟩]⟩), ("a", ⟨"a", [⟨"c1", 0⟩, ⟨"c2", 1⟩]⟩)]⟩⟩)
    ∧ ∀ j ∈ [(⟨"a", [⟨"c1", 0⟩, ⟨"c2", 1⟩]⟩ : JobConfig), ⟨"b", [⟨"c3", 2⟩]⟩],
        ∀ c ∈ j.components,
          (AppBuilder.build ⟨⟨"r", [("c3", "b"), ("c2", "a"), ("c1", "a")],
              [("b", ⟨"b", [⟨"c3", 2⟩]⟩),
                ("a", ⟨"a", [⟨"c1", 0⟩, ⟨"c2", 1⟩]⟩)]⟩⟩).component_job c.label
            = some j.label :=
  ⟨by rfl,
    (app_builder_invariants "r"
        [⟨"a", [⟨"c1", 0⟩, ⟨"c2", 1⟩]⟩, ⟨"b", [⟨"c3", 2⟩]⟩]
        ⟨⟨"r", [("c3", "b"), ("c2", "a"), ("c1", "a")],
          [("b", ⟨"b", [⟨"c3", 2⟩]⟩), ("a", ⟨"a", [⟨"c1", 0⟩, ⟨"c2", 1⟩]⟩)]⟩⟩
        (by rfl)).2.2.2⟩

/-! ### Instance cells (src/amimono/src/component.rs) -/

/-- Modelled from the spec: the once-settable instance cell behind
`publish_instance` is `tokio::sync::SetOnce` (`INSTANCES` in component.rs),
whose implementation is not part of this repository.  Per the spec:
"States: Empty → Set(I). Invariant: at most one successful set; subsequent
sets fail. Readers suspend until Set." -/
def InstanceCell (I : Type) : Type := Option I

/-- Modelled from the spec: the Empty state of an `InstanceCell`. -/
def InstanceCell.empty {I : Type} : InstanceCell I := none

/-- Modelled from the spec: `SetOnce::set` — returns whether the set
succeeded, together with the cell afterwards. -/
def InstanceCell.set {I : Type} : InstanceCell I → I → Bool × InstanceCell I
  | none, v => (true, some v)
  | some w, _ => (false, some w)

/-- Modelled from the spec: what a reader observes — `none` while Empty
(the reader suspends), the published value once Set. -/
def InstanceCell.wait {I : Type} (c : InstanceCell I) : Option I := c

/-- C6: For a single component label, publishing an instance succeeds at most
once: of two publish operations, in either order, the first succeeds and the
second fails (so exactly one succeeds); afterwards readers observe the first
published value, while readers of the Empty cell observe nothing (suspend). -/
theorem instance_publish_write_once (I : Type) (v₁ v₂ first second : I)
    (horder : (first = v₁ ∧ second = v₂) ∨ (first = v₂ ∧ second = v₁)) :
    ((InstanceCell.empty.set first).1 = true
      ∧ (((InstanceCell.empty.set first).2).set second).1 = false)
    ∧ ((((InstanceCell.empty.set first).2).set second).2.wait = some first)
    ∧ (InstanceCell.empty : InstanceCell I).wait = none := by
  rcases horder with ⟨rfl, rfl⟩ | ⟨rfl, rfl⟩ <;>
    exact ⟨⟨rfl, rfl⟩, rfl, rfl⟩

/-- Witness for C6: two publishes of `1` then `2` from Empty — the first
succeeds, the second fails. -/
theorem instance_publish_write_once_witness :
    ((InstanceCell.empty.set 1).1 = true
      ∧ (((InstanceCell.empty.set 1).2).set 2).1 = false)
    ∧ ((((InstanceCell.empty.set 1).2).set 2).2.wait = some 1)
    ∧ (InstanceCell.empty : InstanceCell ℕ).wait = none :=
  instance_publish_write_once ℕ 1 2 1 2 (Or.inl ⟨rfl, rfl⟩)

/-! ### Cluster-watch discovery cache (src/amimono/src/k8s.rs)

Pods are embedded by the fields k8s.rs reads; `report`'s
`panic!("fatal error in discovery cache")` on a `Fatal` per-pod condition
makes `update`/`reset` return `none`. -/

structure PodStatus : Type where
  phase : Option String
  pod_ip : Option String
  deriving DecidableEq

structure PodMetadata : Type where
  name : Option String
  labels : Option (List (String × String))
  deriving DecidableEq

structure Pod : Type where
  metadata : PodMetadata
  status : Option PodStatus
  deriving DecidableEq

/-- The pod's `amimono-rev` label, when present. -/
def podRev (p : Pod) : Option String :=
  p.metadata.labels.bind (fun ls => alookup ls "amimono-rev")

/-- The pod's `amimono-job` label, when present. -/
def podJob (p : Pod) : Option String :=
  p.metadata.labels.bind (fun ls => alookup ls "amimono-job")

inductive DiscoveryCacheError : Type
  | Ignored (reason : String)
  | Fatal (reason : String)
  deriving DecidableEq

structure DiscoveryCachePod : Type where
  ip : String
  job : String
  deriving DecidableEq

structure DiscoveryCache : Type where
  pods : List (String × DiscoveryCachePod)
  pods_by_job : List (String × List String)
  deriving DecidableEq

def DiscoveryCache.new : DiscoveryCache := ⟨[], []⟩

/-- Embedding of `DiscoveryCache::insert`: validate the pod, then record it in `pods` and
in its job's entry of `pods_by_job`.  Returns the result together with the
cache afterwards (unchanged on error). -/
def DiscoveryCache.insert (rev : String) (c : DiscoveryCache) (pod : Pod) :
    Except DiscoveryCacheError Unit × DiscoveryCache :=
  match pod.status with
  | none => (.error (.Fatal "could not get pod status"), c)
  | some status =>
    match status.phase with
    | none => (.error (.Fatal "could not get pod phase"), c)
    | some phase =>
      if phase ≠ "Running" then (.error (.Ignored "pod is not running"), c)
      else
        match pod.metadata.name with
        | none => (.error (.Fatal "could not get pod name"), c)
        | some pod_name =>
          match pod.metadata.labels with
          | none => (.error (.Fatal "could not get pod labels"), c)
          | some pod_labels =>
            match alookup pod_labels "amimono-job" with
            | none => (.error (.Ignored "pod does not have amimono-job label"), c)
            | some job_label =>
              match alookup pod_labels "amimono-rev" with
              | none => (.error (.Ignored "pod does not have amimono-rev label"), c)
              | some job_rev =>
                if job_rev ≠ rev then (.error (.Ignored "pod revision does not match"), c)
                else
                  match status.pod_ip with
                  | none => (.error (.Ignored "pod has no IP"), c)
                  | some pod_ip =>
                    (.ok (),
                      ⟨ainsert c.pods pod_name ⟨pod_ip, job_label⟩,
                        ainsert c.pods_by_job job_label
                          (sinsert ((alookup c.pods_by_job job_label).getD []) pod_name)⟩)

/-- Embedding of `DiscoveryCache::remove`: drop the pod from `pods` and from its job's
entry in `pods_by_job`, dropping the entry when it becomes empty. -/
def DiscoveryCache.remove (c : DiscoveryCache) (pod : Pod) :
    Except DiscoveryCacheError Unit × DiscoveryCache :=
  match pod.metadata.name with
  | none => (.error (.Fatal "could not get pod name"), c)
  | some pod_name =>
    match alookup c.pods pod_name with
    | none => (.error (.Ignored "pod not found in cache"), c)
    | some existing =>
      let pods2 := aremove c.pods pod_name
      let pbj2 :=
        match alookup c.pods_by_job existing.job with
        | none => c.pods_by_job
        | some s =>
          let s2 := sremove s pod_name
          if s2 = [] then aremove c.pods_by_job existing.job
          else ainsert c.pods_by_job existing.job s2
      (.ok (), ⟨pods2, pbj2⟩)

/-- Watch events over pods (`WatchEvent`). -/
inductive WatchEvent : Type
  | Added (pod : Pod)
  | Modified (pod : Pod)
  | Deleted (pod : Pod)
  | Bookmark (resource_version : String)
  | ErrorEvent (msg : String)
  deriving DecidableEq

/-- Does `DiscoveryCache::report` panic on this result? -/
def isFatalResult : Except DiscoveryCacheError Unit → Bool
  | .error (.Fatal _) => true
  | _ => false

/-- Embedding of `K8sCache::update` for the `DiscoveryCache`: apply one watch event;
`none` models the `panic!("fatal error in discovery cache")` raised by
`report` on a `Fatal` per-pod condition. -/
def DiscoveryCache.update (rev : String) (c : DiscoveryCache) :
    WatchEvent → Option DiscoveryCache
  | .Added o =>
    let r := c.insert rev o
    if isFatalResult r.1 then none else some r.2
  | .Modified o =>
    let r1 := c.remove o
    if isFatalResult r1.1 then none
    else
      let r2 := r1.2.insert rev o
      if isFatalResult r2.1 then none else some r2.2
  | .Deleted o =>
    let r := c.remove o
    if isFatalResult r.1 then none else some r.2
  | .Bookmark _ => some c
  | .ErrorEvent _ => some c

/-- Embedding of `K8sCache::reset`: clear both maps, then apply an `Added` event per
listed pod. -/
def DiscoveryCache.reset (rev : String) (_c : DiscoveryCache) (list : List Pod) :
    Option DiscoveryCache :=
  List.foldlM (fun acc p => DiscoveryCache.update rev acc (.Added p))
    DiscoveryCache.new list

/-- One operation applied to the watcher's cache: an initial/recovery LIST
(`reset`) or one WATCH event (`update`). -/
inductive CacheOp : Type
  | reset (pods : List Pod)
  | event (e : WatchEvent)
  deriving DecidableEq

def CacheOp.apply (rev : String) (c : DiscoveryCache) : CacheOp → Option DiscoveryCache
  | .reset l => c.reset rev l
  | .event e => c.update rev e

def DiscoveryCache.applyOps (rev : String) (c : DiscoveryCache) :
    List CacheOp → Option DiscoveryCache
  | [] => some c
  | op :: rest =>
    match op.apply rev c with
    | none => none
    | some c2 => c2.applyOps rev rest

/-- The pods carried by an operation. -/
def CacheOp.podsOf : CacheOp → List Pod
  | .reset l => l
  | .event (.Added p) => [p]
  | .event (.Modified p) => [p]
  | .event (.Deleted p) => [p]
  | .event (.Bookmark _) => []
  | .event (.ErrorEvent _) => []

theorem sinsert_ne_nil (s : List String) (x : String) : sinsert s x ≠ [] := by
  by_cases h : x ∈ s
  · simp only [sinsert, if_pos h]
    intro hnil
    rw [hnil] at h
    exact absurd h (List.not_mem_nil x)
  · simp [sinsert, h]

/-- Characterization of `DiscoveryCache::insert`: either the cache is
unchanged (any error branch), or every validation passed and both maps are
updated. -/
theorem insert_cases (rev : String) (c : DiscoveryCache) (p : Pod) :
    (DiscoveryCache.insert rev c p).2 = c
    ∨ ∃ st pod_name pod_labels job_label pod_ip,
        p.status = some st ∧ st.phase = some "Running"
        ∧ p.metadata.name = some pod_name ∧ p.metadata.labels = some pod_labels
        ∧ alookup pod_labels "amimono-job" = some job_label
        ∧ alookup pod_labels "amimono-rev" = some rev
        ∧ st.pod_ip = some pod_ip
        ∧ (DiscoveryCache.insert rev c p).2
            = ⟨ainsert c.pods pod_name ⟨pod_ip, job_label⟩,
               ainsert c.pods_by_job job_label
                 (sinsert ((alookup c.pods_by_job job_label).getD []) pod_name)⟩ := by
  rcases p with ⟨⟨name, labels⟩, status⟩
  cases status with
  | none => exact Or.inl rfl
  | some st =>
    rcases st with ⟨phase, ip⟩
    cases phase with
    | none => exact Or.inl rfl
    | some ph =>
      by_cases hph : ph = "Running"
      · subst hph
        cases name with
        | none => left; simp [DiscoveryCache.insert]
        | some nm =>
          cases labels with
          | none => left; simp [DiscoveryCache.insert]
          | some ls =>
            cases hjob : alookup ls "amimono-job" with
            | none => simp [DiscoveryCache.insert, hjob]
            | some jl =>
              cases hrev : alookup ls "amimono-rev" with
              | none => simp [DiscoveryCache.insert, hjob, hrev]
              | some jr =>
                by_cases hjr : jr = rev
                · subst hjr
                  cases hip : ip with
                  | none => simp [DiscoveryCache.insert, hjob, hrev]
                  | some ipv =>
                    right
                    refine ⟨⟨some "Running", some ipv⟩, nm, ls, jl, ipv,
                      rfl, rfl, rfl, rfl, hjob, hrev, rfl, ?_⟩
                    simp [DiscoveryCache.insert, hjob, hrev]
                · left
                  simp [DiscoveryCache.insert, hjob, hrev, hjr]
      · left
        simp [DiscoveryCache.insert, hph]

/-- Characterization of `DiscoveryCache::remove`. -/
theorem remove_cases (c : DiscoveryCache) (p : Pod) :
    (DiscoveryCache.remove c p).2 = c
    ∨ (∃ pod_name existing,
        p.metadata.name = some pod_name ∧ alookup c.pods pod_name = some existing
        ∧ alookup c.pods_by_job existing.job = none
        ∧ (DiscoveryCache.remove c p).2 = ⟨aremove c.pods pod_name, c.pods_by_job⟩)
    ∨ (∃ pod_name existing s,
        p.metadata.name = some pod_name ∧ alookup c.pods pod_name = some existing
        ∧ alookup c.pods_by_job existing.job = some s
        ∧ ((sremove s pod_name = [] ∧
              (DiscoveryCache.remove c p).2
                = ⟨aremove c.pods pod_name, aremove c.pods_by_job existing.job⟩)
          ∨ (sremove s pod_name ≠ [] ∧
              (DiscoveryCache.remove c p).2
                = ⟨aremove c.pods pod_name,
                   ainsert c.pods_by_job existing.job (sremove s pod_name)⟩))) := by
  cases hname : p.metadata.name with
  | none => left; simp [DiscoveryCache.remove, hname]
  | some nm =>
    cases hex : alookup c.pods nm with
    | none => left; simp [DiscoveryCache.remove, hname, hex]
    | some existing =>
      cases hpbj : alookup c.pods_by_job existing.job with
      | none =>
        right; left
        exact ⟨nm, existing, rfl, hex, hpbj, by
          simp [DiscoveryCache.remove, hname, hex, hpbj]⟩
      | some s =>
        right; right
        refine ⟨nm, existing, s, rfl, hex, hpbj, ?_⟩
        by_cases hs2 : sremove s nm = []
        · exact Or.inl ⟨hs2, by simp [DiscoveryCache.remove, hname, hex, hpbj, hs2]⟩
        · exact Or.inr ⟨hs2, by simp [DiscoveryCache.remove, hname, hex, hpbj, hs2]⟩

/-- Shape of a non-panicking `update`: the resulting cache is obtained from
the previous one by the event's `remove`/`insert` steps. -/
theorem update_shape (rev : String) (c c2 : DiscoveryCache) (ev : WatchEvent)
    (h : DiscoveryCache.update rev c ev = some c2) :
    (∃ p, ev = .Added p ∧ c2 = (c.insert rev p).2)
    ∨ (∃ p, ev = .Modified p ∧ c2 = ((c.remove p).2.insert rev p).2)
    ∨ (∃ p, ev = .Deleted p ∧ c2 = (c.remove p).2)
    ∨ c2 = c := by
  cases ev with
  | Added p =>
    simp only [DiscoveryCache.update] at h
    split at h
    · exact absurd h (by simp)
    · exact Or.inl ⟨p, rfl, (Option.some.inj h).symm⟩
  | Modified p =>
    simp only [DiscoveryCache.update] at h
    split at h
    · exact absurd h (by simp)
    · split at h
      · exact absurd h (by simp)
      · exact Or.inr (Or.inl ⟨p, rfl, (Option.some.inj h).symm⟩)
  | Deleted p =>
    simp only [DiscoveryCache.update] at h
    split at h
    · exact absurd h (by simp)
    · exact Or.inr (Or.inr (Or.inl ⟨p, rfl, (Option.some.inj h).symm⟩))
  | Bookmark rv =>
    exact Or.inr (Or.inr (Or.inr (Option.some.inj h).symm))
  | ErrorEvent msg =>
    exact Or.inr (Or.inr (Or.inr (Option.some.inj h).symm))

/-- The fatal-per-pod (malformed metadata) conditions `insert` detects on an
added pod: missing status, missing phase, or — for a Running pod — missing
name or labels. -/
def fatalPodAdd (p : Pod) : Bool :=
  match p.status with
  | none => true
  | some st =>
    match st.phase with
    | none => true
    | some ph =>
      decide (ph = "Running") && (p.metadata.name.isNone || p.metadata.labels.isNone)

/-- C9 counterexample: applying an `Added` event for a pod with missing
status does not skip the pod and continue — the watch task panics
(`update` returns `none`). -/
theorem fatal_pod_cex :
    DiscoveryCache.update "rev0" DiscoveryCache.new
      (.Added ⟨⟨some "p", some []⟩, none⟩) = none := rfl

/-- C9 amended: on a fatal-per-pod condition (missing status, phase, name,
or labels), the condition is logged at error level and the watch task
panics (`panic!("fatal error in discovery cache")`); the pod is not skipped
and cache processing does not continue. -/
theorem fatal_pod_panics (rev : String) (c : DiscoveryCache) (p : Pod)
    (h : fatalPodAdd p = true) :
    DiscoveryCache.update rev c (.Added p) = none := by
  rcases p with ⟨⟨name, labels⟩, status⟩
  cases status with
  | none => rfl
  | some st =>
    rcases st with ⟨phase, ip⟩
    cases phase with
    | none => rfl
    | some ph =>
      simp only [fatalPodAdd, Bool.and_eq_true, decide_eq_true_eq,
        Bool.or_eq_true, Option.isNone_iff_eq_none] at h
      obtain ⟨rfl, hnl⟩ := h
      cases name with
      | none => simp [DiscoveryCache.update, DiscoveryCache.insert, isFatalResult]
      | some nm =>
        cases labels with
        | none => simp [DiscoveryCache.update, DiscoveryCache.insert, isFatalResult]
        | some ls => simp at hnl

/-- Witness for C9's amended theorem: a Running pod with no name is a fatal
condition, and `update` panics on it. -/
theorem fatal_pod_panics_witness :
    fatalPodAdd ⟨⟨none, some []⟩, some ⟨some "Running", some "1.2.3.4"⟩⟩ = true
    ∧ DiscoveryCache.update "r" DiscoveryCache.new
        (.Added ⟨⟨none, some []⟩, some ⟨some "Running", some "1.2.3.4"⟩⟩) = none :=
  ⟨rfl, fatal_pod_panics "r" DiscoveryCache.new
    ⟨⟨none, some []⟩, some ⟨some "Running", some "1.2.3.4"⟩⟩ rfl⟩

/-- "If this pod is named `nm`, its `amimono-rev` label differs from `rev`". -/
def podAvoids (rev nm : String) (p : Pod) : Bool :=
  match p.metadata.name with
  | some n => if n = nm then decide (podRev p ≠ some rev) else true
  | none => true

/-- Absence of a name: `nm` appears neither in `pods` nor in any `pods_by_job` set. -/
def Absent (nm : String) (c : DiscoveryCache) : Prop :=
  alookup c.pods nm = none
  ∧ ∀ j s, alookup c.pods_by_job j = some s → nm ∉ s

theorem absent_insert (rev nm : String) (c : DiscoveryCache) (p : Pod)
    (hab : Absent nm c) (hav : podAvoids rev nm p = true) :
    Absent nm (DiscoveryCache.insert rev c p).2 := by
  rcases insert_cases rev c p with heq |
    ⟨st, pod_name, pod_labels, job_label, pod_ip, -, -, hname, hlabels, -, hrev, -, heq⟩
  · rwa [heq]
  · have hne : pod_name ≠ nm := by
      intro hcontra
      subst hcontra
      simp only [podAvoids, hname] at hav
      simp only [if_true, decide_eq_true_eq] at hav
      exact hav (by rw [podRev, hlabels]; exact hrev)
    rw [heq]
    constructor
    · rw [alookup_ainsert, if_neg hne]
      exact hab.1
    · intro j s hjs
      rw [alookup_ainsert] at hjs
      by_cases hj : job_label = j
      · rw [if_pos hj] at hjs
        obtain rfl := (Option.some.inj hjs).symm
        rw [mem_sinsert]
        rintro (rfl | hmem)
        · exact hne rfl
        · cases hpbj : alookup c.pods_by_job job_label with
          | none => rw [hpbj] at hmem; simp at hmem
          | some s0 => rw [hpbj] at hmem; exact hab.2 job_label s0 hpbj hmem
      · rw [if_neg hj] at hjs
        exact hab.2 j s hjs

theorem absent_remove (nm : String) (c : DiscoveryCache) (p : Pod)
    (hab : Absent nm c) :
    Absent nm (DiscoveryCache.remove c p).2 := by
  rcases remove_cases c p with heq |
    ⟨pod_name, existing, -, -, -, heq⟩ |
    ⟨pod_name, existing, s, -, -, hpbj, hbr⟩
  · rwa [heq]
  · rw [heq]
    constructor
    · rw [alookup_aremove]
      by_cases h : pod_name = nm
      · rw [if_pos h]
      · rw [if_neg h]; exact hab.1
    · exact hab.2
  · have hpods : alookup (aremove c.pods pod_name) nm = none := by
      rw [alookup_aremove]
      by_cases h : pod_name = nm
      · rw [if_pos h]
      · rw [if_neg h]; exact hab.1
    rcases hbr with ⟨-, heq⟩ | ⟨-, heq⟩
    · rw [heq]
      refine ⟨hpods, ?_⟩
      intro j s2 hjs
      rw [alookup_aremove] at hjs
      by_cases hj : existing.job = j
      · rw [if_pos hj] at hjs; exact Option.noConfusion hjs
      · rw [if_neg hj] at hjs; exact hab.2 j s2 hjs
    · rw [heq]
      refine ⟨hpods, ?_⟩
      intro j s2 hjs
      rw [alookup_ainsert] at hjs
      by_cases hj : existing.job = j
      · rw [if_pos hj] at hjs
        obtain rfl := (Option.some.inj hjs).symm
        rw [mem_sremove]
        rintro ⟨hmem, -⟩
        exact hab.2 existing.job s hpbj hmem
      · rw [if_neg hj] at hjs
        exact hab.2 j s2 hjs

theorem absent_update (rev nm : String) (c c2 : DiscoveryCache) (ev : WatchEvent)
    (hav : ∀ p ∈ (CacheOp.event ev).podsOf, podAvoids rev nm p = true)
    (hab : Absent nm c) (h : DiscoveryCache.update rev c ev = some c2) :
    Absent nm c2 := by
  rcases update_shape rev c c2 ev h with
    ⟨p, rfl, rfl⟩ | ⟨p, rfl, rfl⟩ | ⟨p, rfl, rfl⟩ | rfl
  · exact absent_insert rev nm c p hab (hav p (by simp [CacheOp.podsOf]))
  · exact absent_insert rev nm _ p (absent_remove nm c p hab)
      (hav p (by simp [CacheOp.podsOf]))
  · exact absent_remove nm c p hab
  · exact hab

theorem absent_foldAdded (rev nm : String) (list : List Pod)
    (hav : ∀ p ∈ list, podAvoids rev nm p = true) :
    ∀ c c2, Absent nm c →
      List.foldlM (fun acc p => DiscoveryCache.update rev acc (.Added p)) c list
        = some c2 →
      Absent nm c2 := by
  induction list with
  | nil =>
    intro c c2 hab h
    rw [List.foldlM_nil] at h
    obtain rfl := Option.some.inj h
    exact hab
  | cons p rest ih =>
    intro c c2 hab h
    rw [List.foldlM_cons] at h
    cases hu : DiscoveryCache.update rev c (.Added p) with
    | none => rw [hu] at h; exact Option.noConfusion h
    | some c1 =>
      rw [hu] at h
      exact ih (fun p hp => hav p (List.mem_cons_of_mem _ hp)) c1 c2
        (absent_update rev nm c c1 (.Added p)
          (fun p2 hp2 => by
            rcases List.mem_cons.mp hp2 with rfl | hp2
            · exact hav p2 (List.mem_cons_self _ _)
            · exact absurd hp2 (List.not_mem_nil p2))
          hab hu) h

theorem absent_applyOps (rev nm : String) (ops : List CacheOp) :
    ∀ c c2, Absent nm c →
      (∀ op ∈ ops, ∀ p ∈ op.podsOf, podAvoids rev nm p = true) →
      DiscoveryCache.applyOps rev c ops = some c2 →
      Absent nm c2 := by
  induction ops with
  | nil =>
    intro c c2 hab _ h
    rw [DiscoveryCache.applyOps] at h
    obtain rfl := Option.some.inj h
    exact hab
  | cons op rest ih =>
    intro c c2 hab hops h
    rw [DiscoveryCache.applyOps] at h
    cases hop : op.apply rev c with
    | none => rw [hop] at h; exact Option.noConfusion h
    | some c1 =>
      rw [hop] at h
      have hab1 : Absent nm c1 := by
        cases op with
        | reset l =>
          have : DiscoveryCache.reset rev c l = some c1 := hop
          rw [DiscoveryCache.reset] at this
          exact absent_foldAdded rev nm l
            (fun p hp => hops (.reset l) (List.mem_cons_self _ _) p hp)
            DiscoveryCache.new c1 ⟨rfl, by intro j s hjs; exact Option.noConfusion hjs⟩
            this
        | event ev =>
          exact absent_update rev nm c c1 ev
            (fun p hp => hops (.event ev) (List.mem_cons_self _ _) p hp) hab hop
      exact ih c1 c2 hab1 (fun o ho p hp => hops o (List.mem_cons_of_mem _ ho) p hp) h

/-- C8: Under the cluster-watch provider, a pod whose `amimono-rev` label
does not equal the running revision is never inserted by `insert` (the cache
is unchanged), and a pod name that only ever appears with a non-matching
revision is absent from `pods` and from every `pods_by_job` set after any
sequence of list/watch operations — hence never appears in a discovery
result. -/
theorem revision_isolation (rev nm : String) (ops : List CacheOp) (c : DiscoveryCache)
    (hops : ∀ op ∈ ops, ∀ p ∈ op.podsOf, podAvoids rev nm p = true)
    (h : DiscoveryCache.applyOps rev DiscoveryCache.new ops = some c) :
    (∀ c0 p, podRev p ≠ some rev → (DiscoveryCache.insert rev c0 p).2 = c0)
    ∧ alookup c.pods nm = none
    ∧ ∀ j s, alookup c.pods_by_job j = some s → nm ∉ s := by
  have hstep : ∀ c0 p, podRev p ≠ some rev → (DiscoveryCache.insert rev c0 p).2 = c0 := by
    intro c0 p hp
    rcases insert_cases rev c0 p with heq |
      ⟨st, pod_name, pod_labels, job_label, pod_ip, -, -, -, hlabels, -, hrev, -, -⟩
    · exact heq
    · exact absurd (by rw [podRev, hlabels]; exact hrev) hp
  have habs : Absent nm c :=
    absent_applyOps rev nm ops DiscoveryCache.new c
      ⟨rfl, by intro j s hjs; exact Option.noConfusion hjs⟩ hops h
  exact ⟨hstep, habs.1, habs.2⟩

/-- Witness for C8: one `Added` event for a pod at the wrong revision leaves
the cache empty. -/
theorem revision_isolation_witness :
    (∀ c0 p, podRev p ≠ some "v1" → (DiscoveryCache.insert "v1" c0 p).2 = c0)
    ∧ alookup
        (DiscoveryCache.new : DiscoveryCache).pods "w" = none
    ∧ ∀ j s, alookup (DiscoveryCache.new : DiscoveryCache).pods_by_job j = some s →
        "w" ∉ s :=
  revision_isolation "v1" "w"
    [.event (.Added ⟨⟨some "w", some [("amimono-job", "j"), ("amimono-rev", "v2")]⟩,
      some ⟨some "Running", some "10.0.0.1"⟩⟩)]
    DiscoveryCache.new
    (by decide) (by rfl)

/-- "The pod's `amimono-job` label (when it has a name and such a label)
agrees with the fixed assignment `jobOf`" — the hypothesis that a pod name
always carries the same job label. -/
def podJobConsistent (jobOf : String → String) (p : Pod) : Bool :=
  match p.metadata.name, podJob p with
  | some nm, some jl => decide (jl = jobOf nm)
  | _, _ => true

/-- The `DiscoveryCache` consistency invariant: membership of a name in
`pods_by_job[j]` coincides with a `pods` entry whose job is `j`, and no
job's set is empty. -/
def Consistent (c : DiscoveryCache) : Prop :=
  (∀ nm j, (∃ s, alookup c.pods_by_job j = some s ∧ nm ∈ s)
      ↔ (∃ pd, alookup c.pods nm = some pd ∧ pd.job = j))
  ∧ ∀ j s, alookup c.pods_by_job j = some s → s ≠ []

/-- Every cached pod's job agrees with the fixed assignment `jobOf`. -/
def JobsOk (jobOf : String → String) (c : DiscoveryCache) : Prop :=
  ∀ nm pd, alookup c.pods nm = some pd → pd.job = jobOf nm

theorem consistent_new : Consistent DiscoveryCache.new := by
  constructor
  · intro nm j
    constructor
    · rintro ⟨s, hs, -⟩
      exact Option.noConfusion hs
    · rintro ⟨pd, hpd, -⟩
      exact Option.noConfusion hpd
  · intro j s hjs
    exact Option.noConfusion hjs

theorem consistent_insert (rev : String) (jobOf : String → String)
    (c : DiscoveryCache) (p : Pod)
    (hc : Consistent c) (hj : JobsOk jobOf c) (hp : podJobConsistent jobOf p = true) :
    Consistent (DiscoveryCache.insert rev c p).2
    ∧ JobsOk jobOf (DiscoveryCache.insert rev c p).2 := by
  rcases insert_cases rev c p with heq |
    ⟨st, nm0, ls0, jl0, ip0, -, -, hname, hlabels, hjob, -, -, heq⟩
  · rw [heq]; exact ⟨hc, hj⟩
  · have hpods : (DiscoveryCache.insert rev c p).2.pods
        = ainsert c.pods nm0 ⟨ip0, jl0⟩ := by rw [heq]
    have hpbj : (DiscoveryCache.insert rev c p).2.pods_by_job
        = ainsert c.pods_by_job jl0
            (sinsert ((alookup c.pods_by_job jl0).getD []) nm0) := by rw [heq]
    have hpj : podJob p = some jl0 := by rw [podJob, hlabels]; exact hjob
    have hjl : jl0 = jobOf nm0 := by
      simp only [podJobConsistent, hname, hpj, decide_eq_true_eq] at hp
      exact hp
    refine ⟨⟨?_, ?_⟩, ?_⟩
    · intro nm' j
      rw [hpbj, hpods]
      constructor
      · rintro ⟨s, hs, hmem⟩
        rw [alookup_ainsert] at hs
        by_cases hjeq : jl0 = j
        · rw [if_pos hjeq] at hs
          obtain rfl := (Option.some.inj hs).symm
          rw [mem_sinsert] at hmem
          rcases hmem with rfl | hmem
          · exact ⟨⟨ip0, jl0⟩, by rw [alookup_ainsert, if_pos rfl], hjeq⟩
          · cases hs0 : alookup c.pods_by_job jl0 with
            | none => rw [hs0] at hmem; simp at hmem
            | some s0 =>
              rw [hs0] at hmem
              obtain ⟨pd, hpd, hpdj⟩ := (hc.1 nm' jl0).mp ⟨s0, hs0, hmem⟩
              by_cases hnm : nm0 = nm'
              · exact ⟨⟨ip0, jl0⟩, by rw [alookup_ainsert, if_pos hnm], hjeq⟩
              · exact ⟨pd, by rw [alookup_ainsert, if_neg hnm]; exact hpd,
                  hpdj.trans hjeq⟩
        · rw [if_neg hjeq] at hs
          obtain ⟨pd, hpd, hpdj⟩ := (hc.1 nm' j).mp ⟨s, hs, hmem⟩
          by_cases hnm : nm0 = nm'
          · subst hnm
            have hex := hj nm0 pd hpd
            exact absurd (hjl.trans (hex.symm.trans hpdj)) hjeq
          · exact ⟨pd, by rw [alookup_ainsert, if_neg hnm]; exact hpd, hpdj⟩
      · rintro ⟨pd, hpd, hpdj⟩
        rw [alookup_ainsert] at hpd
        by_cases hnm : nm0 = nm'
        · rw [if_pos hnm] at hpd
          obtain rfl := (Option.some.inj hpd).symm
          refine ⟨sinsert ((alookup c.pods_by_job jl0).getD []) nm0, ?_, ?_⟩
          · rw [alookup_ainsert, if_pos hpdj]
          · rw [mem_sinsert]
            exact Or.inl hnm.symm
        · rw [if_neg hnm] at hpd
          obtain ⟨s, hs, hmem⟩ := (hc.1 nm' j).mpr ⟨pd, hpd, hpdj⟩
          by_cases hjeq : jl0 = j
          · subst hjeq
            refine ⟨sinsert ((alookup c.pods_by_job jl0).getD []) nm0,
              by rw [alookup_ainsert, if_pos rfl], ?_⟩
            rw [mem_sinsert, hs]
            exact Or.inr hmem
          · exact ⟨s, by rw [alookup_ainsert, if_neg hjeq]; exact hs, hmem⟩
    · intro j s hjs
      rw [hpbj, alookup_ainsert] at hjs
      by_cases hjeq : jl0 = j
      · rw [if_pos hjeq] at hjs
        obtain rfl := (Option.some.inj hjs).symm
        exact sinsert_ne_nil _ _
      · rw [if_neg hjeq] at hjs
        exact hc.2 j s hjs
    · intro nm' pd hpd
      rw [hpods, alookup_ainsert] at hpd
      by_cases hnm : nm0 = nm'
      · rw [if_pos hnm] at hpd
        obtain rfl := (Option.some.inj hpd).symm
        exact (hjl.trans (by rw [hnm]))
      · rw [if_neg hnm] at hpd
        exact hj nm' pd hpd

theorem consistent_remove (jobOf : String → String) (c : DiscoveryCache) (p : Pod)
    (hc : Consistent c) (hj : JobsOk jobOf c) :
    Consistent (DiscoveryCache.remove c p).2
    ∧ JobsOk jobOf (DiscoveryCache.remove c p).2 := by
  have hJ : ∀ nm0, JobsOk jobOf ⟨aremove c.pods nm0, []⟩ → True := fun _ _ => trivial
  rcases remove_cases c p with heq |
    ⟨nm0, existing, -, hex, hpbjn, heq⟩ |
    ⟨nm0, existing, s, -, hex, hpbj, hbr⟩
  · rw [heq]; exact ⟨hc, hj⟩
  · obtain ⟨s, hs, -⟩ := (hc.1 nm0 existing.job).mpr ⟨existing, hex, rfl⟩
    rw [hpbjn] at hs
    exact Option.noConfusion hs
  · have hjobs : ∀ nm' pd, alookup (aremove c.pods nm0) nm' = some pd →
        pd.job = jobOf nm' := by
      intro nm' pd h
      rw [alookup_aremove] at h
      by_cases hnm : nm0 = nm'
      · rw [if_pos hnm] at h; exact Option.noConfusion h
      · rw [if_neg hnm] at h; exact hj nm' pd h
    have hlookup_rm : ∀ nm', nm0 ≠ nm' →
        alookup (aremove c.pods nm0) nm' = alookup c.pods nm' := by
      intro nm' hnm
      rw [alookup_aremove, if_neg hnm]
    rcases hbr with ⟨hs2, heq⟩ | ⟨hs2, heq⟩
    · have hpods : (DiscoveryCache.remove c p).2.pods = aremove c.pods nm0 := by
        rw [heq]
      have hpbj2 : (DiscoveryCache.remove c p).2.pods_by_job
          = aremove c.pods_by_job existing.job := by rw [heq]
      refine ⟨⟨?_, ?_⟩, ?_⟩
      · intro nm' j
        rw [hpbj2, hpods]
        constructor
        · rintro ⟨s', hs', hmem⟩
          rw [alookup_aremove] at hs'
          by_cases hje : existing.job = j
          · rw [if_pos hje] at hs'; exact Option.noConfusion hs'
          · rw [if_neg hje] at hs'
            obtain ⟨pd, hpd, hpdj⟩ := (hc.1 nm' j).mp ⟨s', hs', hmem⟩
            by_cases hnm : nm0 = nm'
            · subst hnm
              rw [hex] at hpd
              obtain rfl := (Option.some.inj hpd).symm
              exact absurd hpdj.symm (fun hh => hje hh.symm)
            · exact ⟨pd, by rw [hlookup_rm nm' hnm]; exact hpd, hpdj⟩
        · rintro ⟨pd, hpd, hpdj⟩
          rw [alookup_aremove] at hpd
          by_cases hnm : nm0 = nm'
          · rw [if_pos hnm] at hpd; exact Option.noConfusion hpd
          · rw [if_neg hnm] at hpd
            obtain ⟨s', hs', hmem⟩ := (hc.1 nm' j).mpr ⟨pd, hpd, hpdj⟩
            have hje : existing.job ≠ j := by
              intro hje
              subst hje
              rw [hpbj] at hs'
              obtain rfl := (Option.some.inj hs').symm
              have : nm' ∈ sremove s' nm0 := (mem_sremove s' nm0 nm').mpr
                ⟨hmem, fun hh => hnm hh.symm⟩
              rw [hs2] at this
              exact absurd this (List.not_mem_nil nm')
            exact ⟨s', by rw [alookup_aremove, if_neg hje]; exact hs', hmem⟩
      · intro j s' hjs
        rw [hpbj2, alookup_aremove] at hjs
        by_cases hje : existing.job = j
        · rw [if_pos hje] at hjs; exact Option.noConfusion hjs
        · rw [if_neg hje] at hjs; exact hc.2 j s' hjs
      · intro nm' pd hpd
        rw [hpods] at hpd
        exact hjobs nm' pd hpd
    · have hpods : (DiscoveryCache.remove c p).2.pods = aremove c.pods nm0 := by
        rw [heq]
      have hpbj2 : (DiscoveryCache.remove c p).2.pods_by_job
          = ainsert c.pods_by_job existing.job (sremove s nm0) := by rw [heq]
      refine ⟨⟨?_, ?_⟩, ?_⟩
      · intro nm' j
        rw [hpbj2, hpods]
        constructor
        · rintro ⟨s', hs', hmem⟩
          rw [alookup_ainsert] at hs'
          by_cases hje : existing.job = j
          · rw [if_pos hje] at hs'
            obtain rfl := (Option.some.inj hs').symm
            rw [mem_sremove] at hmem
            obtain ⟨hmem, hnm⟩ := hmem
            obtain ⟨pd, hpd, hpdj⟩ := (hc.1 nm' j).mp
              ⟨s, by rw [← hje]; exact hpbj, hmem⟩
            exact ⟨pd, by rw [hlookup_rm nm' (fun hh => hnm hh.symm)]; exact hpd,
              hpdj⟩
          · rw [if_neg hje] at hs'
            obtain ⟨pd, hpd, hpdj⟩ := (hc.1 nm' j).mp ⟨s', hs', hmem⟩
            by_cases hnm : nm0 = nm'
            · subst hnm
              rw [hex] at hpd
              obtain rfl := (Option.some.inj hpd).symm
              exact absurd hpdj.symm (fun hh => hje hh.symm)
            · exact ⟨pd, by rw [hlookup_rm nm' hnm]; exact hpd, hpdj⟩
        · rintro ⟨pd, hpd, hpdj⟩
          rw [alookup_aremove] at hpd
          by_cases hnm : nm0 = nm'
          · rw [if_pos hnm] at hpd; exact Option.noConfusion hpd
          · rw [if_neg hnm] at hpd
            obtain ⟨s', hs', hmem⟩ := (hc.1 nm' j).mpr ⟨pd, hpd, hpdj⟩
            by_cases hje : existing.job = j
            · refine ⟨sremove s nm0, by rw [alookup_ainsert, if_pos hje], ?_⟩
              rw [mem_sremove]
              have hseq : s' = s := by
                rw [← hje, hpbj] at hs'
                exact (Option.some.inj hs').symm
              exact ⟨hseq ▸ hmem, fun hh => hnm hh.symm⟩
            · exact ⟨s', by rw [alookup_ainsert, if_neg hje]; exact hs', hmem⟩
      · intro j s' hjs
        rw [hpbj2, alookup_ainsert] at hjs
        by_cases hje : existing.job = j
        · rw [if_pos hje] at hjs
          obtain rfl := (Option.some.inj hjs).symm
          exact hs2
        · rw [if_neg hje] at hjs
          exact hc.2 j s' hjs
      · intro nm' pd hpd
        rw [hpods] at hpd
        exact hjobs nm' pd hpd

theorem consistent_update (rev : String) (jobOf : String → String)
    (c c2 : DiscoveryCache) (ev : WatchEvent)
    (hp : ∀ p ∈ (CacheOp.event ev).podsOf, podJobConsistent jobOf p = true)
    (hc : Consistent c) (hj : JobsOk jobOf c)
    (h : DiscoveryCache.update rev c ev = some c2) :
    Consistent c2 ∧ JobsOk jobOf c2 := by
  rcases update_shape rev c c2 ev h with
    ⟨p, rfl, rfl⟩ | ⟨p, rfl, rfl⟩ | ⟨p, rfl, rfl⟩ | rfl
  · exact consistent_insert rev jobOf c p hc hj (hp p (by simp [CacheOp.podsOf]))
  · obtain ⟨hc1, hj1⟩ := consistent_remove jobOf c p hc hj
    exact consistent_insert rev jobOf _ p hc1 hj1 (hp p (by simp [CacheOp.podsOf]))
  · exact consistent_remove jobOf c p hc hj
  · exact ⟨hc, hj⟩

theorem consistent_foldAdded (rev : String) (jobOf : String → String)
    (list : List Pod)
    (hp : ∀ p ∈ list, podJobConsistent jobOf p = true) :
    ∀ c c2, Consistent c → JobsOk jobOf c →
      List.foldlM (fun acc p => DiscoveryCache.update rev acc (.Added p)) c list
        = some c2 →
      Consistent c2 ∧ JobsOk jobOf c2 := by
  induction list with
  | nil =>
    intro c c2 hc hj h
    rw [List.foldlM_nil] at h
    obtain rfl := Option.some.inj h
    exact ⟨hc, hj⟩
  | cons p rest ih =>
    intro c c2 hc hj h
    rw [List.foldlM_cons] at h
    cases hu : DiscoveryCache.update rev c (.Added p) with
    | none => rw [hu] at h; exact Option.noConfusion h
    | some c1 =>
      rw [hu] at h
      obtain ⟨hc1, hj1⟩ := consistent_update rev jobOf c c1 (.Added p)
        (fun p2 hp2 => by
          rcases List.mem_cons.mp hp2 with rfl | hp2
          · exact hp p2 (List.mem_cons_self _ _)
          · exact absurd hp2 (List.not_mem_nil p2))
        hc hj hu
      exact ih (fun p2 hp2 => hp p2 (List.mem_cons_of_mem _ hp2)) c1 c2 hc1 hj1 h

theorem consistent_applyOps (rev : String) (jobOf : String → String)
    (ops : List CacheOp) :
    ∀ c c2, Consistent c → JobsOk jobOf c →
      (∀ op ∈ ops, ∀ p ∈ op.podsOf, podJobConsistent jobOf p = true) →
      DiscoveryCache.applyOps rev c ops = some c2 →
      Consistent c2 ∧ JobsOk jobOf c2 := by
  induction ops with
  | nil =>
    intro c c2 hc hj _ h
    rw [DiscoveryCache.applyOps] at h
    obtain rfl := Option.some.inj h
    exact ⟨hc, hj⟩
  | cons op rest ih =>
    intro c c2 hc hj hops h
    rw [DiscoveryCache.applyOps] at h
    cases hop : op.apply rev c with
    | none => rw [hop] at h; exact Option.noConfusion h
    | some c1 =>
      rw [hop] at h
      have h1 : Consistent c1 ∧ JobsOk jobOf c1 := by
        cases op with
        | reset l =>
          have hr : DiscoveryCache.reset rev c l = some c1 := hop
          rw [DiscoveryCache.reset] at hr
          exact consistent_foldAdded rev jobOf l
            (fun p hp => hops (.reset l) (List.mem_cons_self _ _) p hp)
            DiscoveryCache.new c1 consistent_new
            (fun nm pd hpd => Option.noConfusion hpd) hr
        | event ev =>
          exact consistent_update rev jobOf c c1 ev
            (fun p hp => hops (.event ev) (List.mem_cons_self _ _) p hp) hc hj hop
      exact ih c1 c2 h1.1 h1.2
        (fun o ho p hp => hops o (List.mem_cons_of_mem _ ho) p hp) h

/-- C10: For every sequence of cache operations in which each pod name always
carries the same `amimono-job` label, the `DiscoveryCache` stays consistent:
a name is in `pods_by_job[j]` iff it is a `pods` key with `pods[name].job = j`,
and no `pods_by_job` set is empty. -/
theorem discovery_cache_consistent (rev : String) (jobOf : String → String)
    (ops : List CacheOp) (c : DiscoveryCache)
    (hops : ∀ op ∈ ops, ∀ p ∈ op.podsOf, podJobConsistent jobOf p = true)
    (h : DiscoveryCache.applyOps rev DiscoveryCache.new ops = some c) :
    (∀ nm j, (∃ s, alookup c.pods_by_job j = some s ∧ nm ∈ s)
        ↔ (∃ pd, alookup c.pods nm = some pd ∧ pd.job = j))
    ∧ ∀ j s, alookup c.pods_by_job j = some s → s ≠ [] := by
  obtain ⟨hc, -⟩ := consistent_applyOps rev jobOf ops DiscoveryCache.new c
    consistent_new (fun nm pd hpd => Option.noConfusion hpd) hops h
  exact hc

/-- Witness for C10: a single `Added` event for a well-formed pod yields the
one-entry cache, which is consistent. -/
theorem discovery_cache_consistent_witness :
    (∀ nm j,
        (∃ s, alookup (⟨[("w", ⟨"10.0.0.1", "j"⟩)], [("j", ["w"])]⟩ :
            DiscoveryCache).pods_by_job j = some s ∧ nm ∈ s)
        ↔ (∃ pd, alookup (⟨[("w", ⟨"10.0.0.1", "j"⟩)], [("j", ["w"])]⟩ :
            DiscoveryCache).pods nm = some pd ∧ pd.job = j))
    ∧ ∀ j s, alookup (⟨[("w", ⟨"10.0.0.1", "j"⟩)], [("j", ["w"])]⟩ :
        DiscoveryCache).pods_by_job j = some s → s ≠ [] :=
  discovery_cache_consistent "v1" (fun _ => "j")
    [.event (.Added ⟨⟨some "w", some [("amimono-job", "j"), ("amimono-rev", "v1")]⟩,
      some ⟨some "Running", some "10.0.0.1"⟩⟩)]
    ⟨[("w", ⟨"10.0.0.1", "j"⟩)], [("j", ["w"])]⟩
    (by decide) (by rfl)

end Amimono
